import Mathlib

/-!
Shallow embedding of the yahrtzeit forum scraper (`scraper.py`) and a
verification of the claims of the specification against it.

The embedding translates, from the source:
  - `remove_nikud`  (diacritic normalizer),
  - `hebrew_to_int` (Hebrew numeral decoder),
  - `month_map`     (month alias table) and the longest-match month lookup,
  - the line-classifying block scanner inside `fetch_forum_page`,
  - the per-unit exception handling of `fetch_forum_page`,
  - the merge and per-key dedup of `main`.

Python strings are modelled as `String` / `List Char`; Python `int` as `Nat`
(all values in play are non-negative); Python `None`-able values as `Option`;
the per-page record dict (insertion ordered) as an association list.
-/

namespace YidcalData

/-- ASCII apostrophe, U+0027: the character stripped by the first `replace`
call in `hebrew_to_int` and by the second `replace` call applied to each
scanner line, and the final character of the two leap-month aliases in
`month_map`. -/
def apos : Char := Char.ofNat 39

/-- ASCII double quote, stripped by `hebrew_to_int`. -/
def dquote : Char := Char.ofNat 34

/-! ### Diacritic Normalizer: `remove_nikud` -/

/-- General-category `Mn` (nonspacing mark) test, restricted to the character
repertoire relevant to the source text: Hebrew cantillation marks
U+0591..U+05AF, Hebrew points U+05B0..U+05BD, U+05BF, U+05C1, U+05C2,
U+05C4, U+05C5, U+05C7, and the combining diacritical marks block
U+0300..U+036F.  This is the Python test that `unicodedata.category` of the character
equals Mn, on that repertoire. -/
def isMn (c : Char) : Bool :=
  (0x0591 ≤ c.toNat && c.toNat ≤ 0x05BD) || c.toNat == 0x05BF ||
  c.toNat == 0x05C1 || c.toNat == 0x05C2 || c.toNat == 0x05C4 ||
  c.toNat == 0x05C5 || c.toNat == 0x05C7 ||
  (0x0300 ≤ c.toNat && c.toNat ≤ 0x036F)

/-- Canonical (NFD) decomposition table for the precomposed characters of the
relevant repertoire: Hebrew presentation forms decompose into a base letter
plus a nonspacing mark.  Characters absent from the table are their own
decomposition. -/
def decompTable : List (Char × List Char) :=
  [ (Char.ofNat 0xFB1D, [Char.ofNat 0x05D9, Char.ofNat 0x05B4]),
    (Char.ofNat 0xFB1F, [Char.ofNat 0x05F2, Char.ofNat 0x05B7]),
    (Char.ofNat 0xFB2A, [Char.ofNat 0x05E9, Char.ofNat 0x05C1]),
    (Char.ofNat 0xFB2B, [Char.ofNat 0x05E9, Char.ofNat 0x05C2]),
    (Char.ofNat 0xFB31, [Char.ofNat 0x05D1, Char.ofNat 0x05BC]),
    (Char.ofNat 0xFB35, [Char.ofNat 0x05D5, Char.ofNat 0x05BC]),
    (Char.ofNat 0xFB4B, [Char.ofNat 0x05D5, Char.ofNat 0x05B9]) ]

/-- Per-character canonical decomposition (Python NFD normalization acting
on one character). -/
def decomp (c : Char) : List Char := (decompTable.lookup c).getD [c]

/-- NFD normalization of a character list.  The canonical-reordering pass of
full NFD is omitted: on this repertoire it only permutes adjacent nonspacing
marks, all of which are removed by the `Mn` filter in `remove_nikud`, so the
composite `remove_nikud` below agrees with the source. -/
def nfd (l : List Char) : List Char := l.flatMap decomp

/-- Source `remove_nikud`: NFD-decompose, then drop every nonspacing mark. -/
def remove_nikud (s : String) : String :=
  String.mk ((nfd s.data).filter (fun c => !(isMn c)))

/-! ### Numeral Decoder: `hebrew_to_int` -/

/-- Source letter-value table `letters` (the `dict.get` default of 0 applies
to characters absent from the table). -/
def letterVal (c : Char) : Nat :=
  match c with
  | 'א' => 1 | 'ב' => 2 | 'ג' => 3 | 'ד' => 4 | 'ה' => 5
  | 'ו' => 6 | 'ז' => 7 | 'ח' => 8 | 'ט' => 9 | 'י' => 10
  | 'כ' => 20 | 'ל' => 30 | 'מ' => 40 | 'נ' => 50 | 'ס' => 60
  | 'ע' => 70 | 'פ' => 80 | 'צ' => 90 | 'ק' => 100 | 'ר' => 200
  | 'ש' => 300 | 'ת' => 400
  | _ => 0

/-- The quote-stripping step of `hebrew_to_int`: both `replace` calls in a
single filter. -/
def stripQuotes (l : List Char) : List Char :=
  l.filter (fun c => !(c == apos || c == dquote))

/-- Source `hebrew_to_int`: empty input is 0; otherwise strip apostrophes and
double quotes and sum the letter values. -/
def hebrew_to_int (s : String) : Nat :=
  if s.data.isEmpty then 0
  else (stripQuotes s.data).foldl (fun v c => v + letterVal c) 0

/-- The scanner wraps its call to `hebrew_to_int` in `try ... except
ValueError`.  The body of `hebrew_to_int` consists solely of total operations
(`str.replace`, `dict.get` with a default, integer addition), so the call
always returns normally; the checked call is therefore `some` of the plain
result. -/
def hebrew_to_int_checked (s : String) : Option Nat :=
  some (hebrew_to_int s)

/-! ### Month Resolver: `month_map` and longest-match lookup -/

/-- Source `month_map`, in its insertion order (the last two aliases end in
an ASCII apostrophe, written here as an escape). -/
def month_map : List (String × Nat) :=
  [ ("ניסן", 1), ("אייר", 2), ("סיון", 3), ("תמוז", 4),
    ("אב", 5), ("מנחם אב", 5), ("מנ\"א", 5), ("אלול", 6),
    ("תשרי", 7), ("חשון", 8), ("מרחשון", 8), ("כסלו", 9),
    ("טבת", 10), ("שבט", 11), ("אדר", 12),
    ("אדר א\u0027", 12), ("אדר ב\u0027", 13) ]

/-- The first-half leap month alias, `"אדר א\u0027"`. -/
def adar1 : String := "אדר א\u0027"

/-- The second-half leap month alias, `"אדר ב\u0027"`. -/
def adar2 : String := "אדר ב\u0027"

/-- Boolean test that `needle` is a prefix of `hay` (Python
`str.startswith`, at character-list level). -/
def startsWith : List Char → List Char → Bool
  | _, [] => true
  | [], _ :: _ => false
  | c :: cs, d :: ds => c == d && startsWith cs ds

/-- Boolean substring test (Python `needle in hay`). -/
def hasSub : List Char → List Char → Bool
  | [], needle => startsWith [] needle
  | c :: t, needle => startsWith (c :: t) needle || hasSub t needle

/-- Comparison used to sort aliases: length, descending.  Ties are kept in
the original order by the stable sort below, exactly as what
the Python `sorted` call with a length key and descending order does. -/
def lenGE (a b : String) : Bool := decide (b.length ≤ a.length)

/-- Stable insertion (an element is placed before every later element of
equal length). -/
def insertSorted (x : String) : List String → List String
  | [] => [x]
  | y :: ys => if lenGE x y then x :: y :: ys else y :: insertSorted x ys

/-- Stable insertion sort by `lenGE`. -/
def stableSortLen : List String → List String
  | [] => []
  | x :: xs => insertSorted x (stableSortLen xs)

/-- The alias list sorted by length, descending, insertion order preserved
among equal lengths, as the Python stable `sorted` call produces. -/
def sortedAliases : List String := stableSortLen (month_map.map Prod.fst)

/-- Longest-match month lookup over a (stripped) line: the first alias, in
descending-length order, that occurs as a substring of the line. -/
def findMonthAlias (l : List Char) : Option String :=
  sortedAliases.find? (fun a => hasSub l a.data)

/-! ### Block Scanner: state, records, and the line classifier -/

/-- Ephemeral per-post scanner state: the variables `current_day`,
`current_month` and `default_pref` of `fetch_forum_page`. -/
structure ScanState where
  currentDay : Option Nat
  currentMonth : Option Nat
  defaultPref : Option Nat
deriving DecidableEq, Repr

/-- The all-absent state installed at the start of each post. -/
def initState : ScanState := ⟨none, none, none⟩

/-- A record key: the Python tuple `(current_month, current_day)`.  The month
component mirrors the Python variable, which may be None. -/
abbrev Key := Option Nat × Nat

/-- An emitted record: the Python dict with fields `text` and `adar_pref`. -/
structure Entry where
  text : String
  adar_pref : Option Nat
deriving DecidableEq, Repr

/-- The per-unit record dict `local_yahrtzeits`, as an insertion-ordered
association list. -/
abbrev RecordMap := List (Key × List Entry)

/-- Appending one entry under a key: a fresh key goes to the end of the dict,
an existing key has the entry appended to its list in place. -/
def mapAppend (m : RecordMap) (k : Key) (e : Entry) : RecordMap :=
  if m.any (fun p => p.1 == k) then
    m.map (fun p => if p.1 == k then (p.1, p.2 ++ [e]) else p)
  else m ++ [(k, [e])]

/-- The numeral letters accepted in the first two characters of a header
line (values 1 to 30). -/
def dayLetters : List Char := "אבגדהוזחטיכל".data

/-- Per-line cleanup: remove every backslash, then every apostrophe (the two
`replace` calls at the top of the line loop). -/
def stripSA (l : List Char) : List Char :=
  l.filter (fun c => !(c == '\\' || c == apos))

/-- Header test, with the source conjunct order: the line is nonempty, one of
its first two characters is a numeral letter, some month alias occurs as a
substring, and the line does not start with the primary name lead token. -/
def isHeaderLine (l : List Char) : Bool :=
  !l.isEmpty && (l.take 2).any (fun c => dayLetters.contains c) &&
  month_map.any (fun p => hasSub l p.1.data) && !(startsWith l "רבי ".data)

/-- The first whitespace-delimited token of a line, as the day numeral text
(Python split on a single space, element zero). -/
def dayTextOf (l : List Char) : String :=
  String.mk (l.takeWhile (fun c => !(c == ' ')))

/-- Header action: resolve the month by longest match, look it up, fold the
two leap indices into month 12 setting the default leap-half preference, and
decode the day numeral through the checked decoder call. -/
def headerAction (st : ScanState) (l : List Char) : ScanState :=
  match findMonthAlias l with
  | none => { st with currentDay := none }
  | some a =>
    match month_map.lookup a with
    | none => { st with currentMonth := none, currentDay := none }
    | some v =>
      let mo := if v == 12 || v == 13 then 12 else v
      let pref : Option Nat :=
        if v == 12 || v == 13 then
          if a == adar1 then some 1 else if a == adar2 then some 2 else none
        else none
      match hebrew_to_int_checked (dayTextOf l) with
      | none => { currentDay := none, currentMonth := some mo, defaultPref := pref }
      | some d => { currentDay := some d, currentMonth := some mo, defaultPref := pref }

/-- Left-to-right removal of every doubled question mark, as the Python
`replace` of two question marks with the empty string does. -/
def removeQQ : List Char → List Char
  | [] => []
  | [c] => [c]
  | c1 :: c2 :: rest =>
    if c1 == '?' && c2 == '?' then removeQQ rest
    else c1 :: removeQQ (c2 :: rest)

/-- Python whitespace test for `str.strip`. -/
def isPySpace (c : Char) : Bool :=
  c == ' ' || c == '\n' || c == '\t' || c == '\r' ||
  c == Char.ofNat 11 || c == Char.ofNat 12

/-- Python `str.strip()`: drop whitespace from both ends. -/
def pyStrip (l : List Char) : List Char :=
  ((l.dropWhile isPySpace).reverse.dropWhile isPySpace).reverse

/-- The first-half parenthesized leaf marker. -/
def markA : List Char := "(א)".data

/-- The second-half parenthesized leaf marker. -/
def markB : List Char := "(ב)".data

/-- The closed list of honorific lead tokens a name-attribution line may
start with, in source order. -/
def nameLeadTokens : List String :=
  ["רבי ", "יששכר ", "השר ", "שמעון ", "??רבי ", "?רבי ", "משה ", "רבינו "]

/-- Truthiness of `current_day`: present and nonzero. -/
def dayTruthy (st : ScanState) : Bool :=
  match st.currentDay with
  | some d => !(d == 0)
  | none => false

/-- Name-attribution test: a date is in force and the line starts with one
of the lead tokens. -/
def isNameLine (st : ScanState) (l : List Char) : Bool :=
  dayTruthy st && nameLeadTokens.any (fun p => startsWith l p.data)

/-- Name action: drop doubled question marks, apply the leaf-marker override
if the line starts with one, normalize diacritics, and append the record at
the `(current_month, current_day)` key. -/
def nameAction (st : ScanState) (m : RecordMap) (l : List Char) : RecordMap :=
  let l2 := removeQQ l
  let pr : Option Nat × List Char :=
    if startsWith l2 markA then (some 1, pyStrip (l2.drop 3))
    else if startsWith l2 markB then (some 2, pyStrip (l2.drop 3))
    else (st.defaultPref, l2)
  mapAppend m (st.currentMonth, st.currentDay.getD 0)
    ⟨remove_nikud (String.mk pr.2), pr.1⟩

/-- The connector phrases that are explicitly skipped. -/
def connectorWords : List (List Char) := ["ובנו".data, "וחתנו".data]

/-- One step of the scanner on a raw line: clean the line, then run the
ordered classification (header, name attribution, connector, noise). -/
def stepLine (sm : ScanState × RecordMap) (raw : String) : ScanState × RecordMap :=
  let l := stripSA raw.data
  if isHeaderLine l then (headerAction sm.1 l, sm.2)
  else if isNameLine sm.1 l then (sm.1, nameAction sm.1 sm.2 l)
  else if connectorWords.any (fun w => l == w) then sm
  else sm

/-- Scanning a sequence of (already cleaned and split) lines in order. -/
def scanLines (sm : ScanState × RecordMap) (lines : List String) : ScanState × RecordMap :=
  lines.foldl stepLine sm

/-- Python split of a character list on the newline character, keeping empty
pieces. -/
def splitOnNL : List Char → List (List Char)
  | [] => [[]]
  | c :: rest =>
    match splitOnNL rest with
    | [] => if c == '\n' then [[], []] else [[c]]
    | cur :: others =>
      if c == '\n' then [] :: cur :: others else (c :: cur) :: others

/-- The line list of one block: split on newlines, strip each line, and keep
only the nonempty ones. -/
def blockLines (block : String) : List String :=
  (((splitOnNL block.data).map pyStrip).filter (fun l => !l.isEmpty)).map String.mk

/-- All lines of one post, block by block, in order. -/
def postLines (blocks : List String) : List String :=
  blocks.flatMap blockLines

/-- Scanning one post: fresh all-absent state, shared record dict. -/
def scanPost (m : RecordMap) (blocks : List String) : RecordMap :=
  (scanLines (initState, m) (postLines blocks)).2

/-- One event of a scan unit: either a successfully parsed post, or an
exception raised at this point of the unit. -/
inductive ScanEvent where
  | post (blocks : List String)
  | exn
deriving DecidableEq

/-- Processing the events of one unit: posts accumulate records; an
exception stops the unit, which hands back what it accumulated so far. -/
def runEvents (m : RecordMap) : List ScanEvent → RecordMap
  | [] => m
  | ScanEvent.post bs :: rest => runEvents (scanPost m bs) rest
  | ScanEvent.exn :: _ => m

/-- Source `fetch_forum_page`, network layer abstracted into the event list:
the whole body sits in a try block whose handler returns the local record
dict accumulated so far, so an exception mid-unit yields exactly the records
emitted before it. -/
def fetch_forum_page (events : List ScanEvent) : RecordMap :=
  runEvents [] events

/-! ### Record Aggregator: merge and dedup from `main` -/

/-- Extending the data dict at one key with a list of entries (`data.setdefault`
style: a fresh key is appended, an existing key extended in place). -/
def extendKey (m : RecordMap) (k : Key) (v : List Entry) : RecordMap :=
  if m.any (fun p => p.1 == k) then
    m.map (fun p => if p.1 == k then (p.1, p.2 ++ v) else p)
  else m ++ [(k, v)]

/-- Merging one unit result into the aggregate dict, key by key in the unit
dict order. -/
def mergeInto (acc : RecordMap) (r : RecordMap) : RecordMap :=
  r.foldl (fun d p => extendKey d p.1 p.2) acc

/-- Merging the gathered unit results in order; a unit that came back as an
exception is skipped (the `isinstance` guard in `main`). -/
def mergeResults (rs : List (Except Unit RecordMap)) : RecordMap :=
  rs.foldl
    (fun d r => match r with
      | Except.ok mp => mergeInto d mp
      | Except.error _ => d) []

/-- The dedup key of an entry: the `(text, adar_pref)` tuple. -/
def entryKey (e : Entry) : String × Option Nat := (e.text, e.adar_pref)

/-- The dedup loop of `main`: walk the list keeping a seen set, keep an entry
only if its key was not seen before. -/
def dedupGo (seen : List (String × Option Nat)) : List Entry → List Entry
  | [] => []
  | e :: rest =>
    if entryKey e ∈ seen then dedupGo seen rest
    else e :: dedupGo (entryKey e :: seen) rest

/-- Order-preserving dedup by `(text, adar_pref)`. -/
def dedup (l : List Entry) : List Entry := dedupGo [] l

/-- Declarative formulation of first-occurrence dedup: keep the head, then
dedup the tail with every entry equal-keyed to the head removed. -/
def dedupSpec : List Entry → List Entry
  | [] => []
  | e :: rest =>
    e :: dedupSpec (rest.filter (fun x => !(decide (entryKey x = entryKey e))))
termination_by l => l.length
decreasing_by
  simp only [List.length_cons]
  exact Nat.lt_succ_of_le (List.length_filter_le _ _)

/-- The full aggregation of `main`: merge all unit results, then dedup each
key in place. -/
def aggregate (rs : List (Except Unit RecordMap)) : RecordMap :=
  (mergeResults rs).map (fun p => (p.1, dedup p.2))

/-! ### Basic helper lemmas -/

/-- Splitting a string append into character lists. -/
theorem append_mk (s t : String) : s ++ t = String.mk (s.data ++ t.data) := by
  cases s; cases t; rfl

/-- A list starts with itself followed by anything. -/
theorem startsWith_append_self (p x : List Char) : startsWith (p ++ x) p = true := by
  induction p with
  | nil => cases x <;> rfl
  | cons c cs ih => simp [startsWith, ih]

/-- A head mismatch refutes `startsWith`. -/
theorem startsWith_false_of_head {c d : Char} (h : (c == d) = false) (cs ds : List Char) :
    startsWith (c :: cs) (d :: ds) = false := by
  simp [startsWith, h]

/-- Every character of a matched needle occurs in the haystack. -/
theorem mem_of_startsWith {hay needle : List Char} (h : startsWith hay needle = true) :
    ∀ c ∈ needle, c ∈ hay := by
  induction needle generalizing hay with
  | nil => simp
  | cons d ds ih =>
    cases hay with
    | nil => simp [startsWith] at h
    | cons c cs =>
      simp only [startsWith, Bool.and_eq_true, beq_iff_eq] at h
      obtain ⟨rfl, h2⟩ := h
      intro x hx
      rcases List.mem_cons.mp hx with rfl | hx
      · exact List.mem_cons_self _ _
      · exact List.mem_cons_of_mem _ (ih h2 x hx)

/-- Every character of a substring occurs in the haystack. -/
theorem mem_of_hasSub {hay needle : List Char} (h : hasSub hay needle = true) :
    ∀ c ∈ needle, c ∈ hay := by
  induction hay with
  | nil =>
    cases needle with
    | nil => simp
    | cons d ds => simp [hasSub, startsWith] at h
  | cons c t ih =>
    simp only [hasSub, Bool.or_eq_true] at h
    rcases h with h | h
    · exact mem_of_startsWith h
    · intro x hx
      exact List.mem_cons_of_mem _ (ih h x hx)

/-- Question-mark removal walks over a head that is not a question mark. -/
theorem removeQQ_cons {c : Char} (h : (c == Char.ofNat 63) = false) (l : List Char) :
    removeQQ (c :: l) = c :: removeQQ l := by
  cases l with
  | nil => rfl
  | cons d ds => simp [removeQQ, h]

/-- Stable insertion permutes to a cons. -/
theorem insertSorted_perm (x : String) (l : List String) :
    (insertSorted x l).Perm (x :: l) := by
  induction l with
  | nil => exact List.Perm.refl _
  | cons y ys ih =>
    rw [insertSorted]
    by_cases hc : lenGE x y = true
    · rw [if_pos hc]
    · rw [if_neg hc]
      exact (ih.cons y).trans (List.Perm.swap x y ys)

/-- The stable sort is a permutation of its input. -/
theorem stableSortLen_perm (l : List String) : (stableSortLen l).Perm l := by
  induction l with
  | nil => exact List.Perm.refl _
  | cons x xs ih => exact (insertSorted_perm x (stableSortLen xs)).trans (ih.cons x)

/-- The sorted alias list is a permutation of the alias list. -/
theorem sortedAliases_perm : sortedAliases.Perm (month_map.map Prod.fst) :=
  stableSortLen_perm _

/-- A successful lookup pair is a member of the association list. -/
theorem mem_of_lookup_eq_some {α β : Type} [BEq α] [LawfulBEq α] {a : α} {b : β} :
    ∀ {l : List (α × β)}, l.lookup a = some b → (a, b) ∈ l := by
  intro l
  induction l with
  | nil => intro h; simp [List.lookup] at h
  | cons p t ih =>
    intro h
    obtain ⟨k, c⟩ := p
    rw [List.lookup] at h
    cases hk : a == k with
    | true =>
      rw [hk] at h
      obtain rfl := eq_of_beq hk
      cases h
      exact List.mem_cons_self _ _
    | false =>
      rw [hk] at h
      exact List.mem_cons_of_mem _ (ih h)

/-- A key present among the keys of an association list has a lookup value. -/
theorem exists_lookup_of_mem_keys {α β : Type} [BEq α] [LawfulBEq α] {a : α} :
    ∀ {l : List (α × β)}, a ∈ l.map Prod.fst → ∃ v, l.lookup a = some v := by
  intro l
  induction l with
  | nil => intro h; simp at h
  | cons p t ih =>
    intro h
    obtain ⟨k, b⟩ := p
    by_cases hk : a = k
    · exact ⟨b, by simp [List.lookup, hk]⟩
    · have hmem : a ∈ t.map Prod.fst := by
        simp only [List.map_cons, List.mem_cons] at h
        tauto
      obtain ⟨v, hv⟩ := ih hmem
      refine ⟨v, ?_⟩
      rw [List.lookup]
      rw [show (a == k) = false by simpa using hk]
      exact hv

/-! ### Claim C4: the Numeral Decoder -/

/-- C4.  The Numeral Decoder first removes all apostrophe and double-quote
characters and then sums the fixed letter-value table over the remaining
characters (absent characters contributing 0 through the table default); the
empty string decodes to 0; and inserting or deleting an apostrophe or a
double quote anywhere in the input never changes the result. -/
theorem C4_decoder_strip_then_sum :
    (∀ s : String,
       hebrew_to_int s = (stripQuotes s.data).foldl (fun v c => v + letterVal c) 0) ∧
    hebrew_to_int "" = 0 ∧
    (∀ t u : String,
       hebrew_to_int (String.mk (t.data ++ apos :: u.data)) =
         hebrew_to_int (String.mk (t.data ++ u.data)) ∧
       hebrew_to_int (String.mk (t.data ++ dquote :: u.data)) =
         hebrew_to_int (String.mk (t.data ++ u.data))) := by
  have hall : ∀ s : String,
      hebrew_to_int s = (stripQuotes s.data).foldl (fun v c => v + letterVal c) 0 := by
    intro s
    rw [hebrew_to_int]
    by_cases h : s.data.isEmpty
    · rw [if_pos h]
      rw [List.isEmpty_iff] at h
      rw [h]
      rfl
    · rw [if_neg h]
  refine ⟨hall, rfl, ?_⟩
  intro t u
  have hsplit : ∀ (c : Char), (!(c == apos || c == dquote)) = false →
      hebrew_to_int (String.mk (t.data ++ c :: u.data)) =
        hebrew_to_int (String.mk (t.data ++ u.data)) := by
    intro c hc
    rw [hall, hall]
    show (stripQuotes (t.data ++ c :: u.data)).foldl _ 0 =
      (stripQuotes (t.data ++ u.data)).foldl _ 0
    rw [stripQuotes, stripQuotes, List.filter_append, List.filter_append,
      List.filter_cons, if_neg (by simp [hc])]
  exact ⟨hsplit apos (by decide), hsplit dquote (by decide)⟩

/-! ### Claim C9: the Diacritic Normalizer is idempotent -/

/-- Every character produced by a table decomposition is fully decomposed. -/
theorem decomp_table_elems : ∀ p ∈ decompTable, ∀ d ∈ p.2, decomp d = [d] := by decide

/-- Every character produced by `decomp` is fully decomposed. -/
theorem decomp_decomp {c d : Char} (h : d ∈ decomp c) : decomp d = [d] := by
  rw [decomp] at h
  cases hl : decompTable.lookup c with
  | none =>
    rw [hl] at h
    simp only [Option.getD_none, List.mem_singleton] at h
    subst h
    rw [decomp, hl]
    rfl
  | some L =>
    rw [hl] at h
    simp only [Option.getD_some] at h
    exact decomp_table_elems _ (mem_of_lookup_eq_some hl) d h

/-- Decomposition is the identity on a list of fully decomposed characters. -/
theorem flatMap_decomp_id {l : List Char} (h : ∀ d ∈ l, decomp d = [d]) :
    l.flatMap decomp = l := by
  induction l with
  | nil => rfl
  | cons c t ih =>
    rw [List.flatMap_cons, h c (List.mem_cons_self _ _),
      ih (fun d hd => h d (List.mem_cons_of_mem _ hd))]
    rfl

/-- C9.  The Diacritic Normalizer is idempotent: applying `remove_nikud`
twice yields the same string as applying it once (and, being a total
function, it never fails on any input). -/
theorem C9_remove_nikud_idempotent (s : String) :
    remove_nikud (remove_nikud s) = remove_nikud s := by
  rw [remove_nikud, remove_nikud]
  have hdec : ∀ d ∈ (nfd s.data).filter (fun c => !(isMn c)), decomp d = [d] := by
    intro d hd
    have hmem : d ∈ nfd s.data := (List.mem_filter.mp hd).1
    obtain ⟨c, _, hdc⟩ := List.mem_flatMap.mp hmem
    exact decomp_decomp hdc
  show String.mk ((nfd ((String.mk _).data)).filter _) = _
  rw [show (String.mk ((nfd s.data).filter (fun c => !(isMn c)))).data =
      (nfd s.data).filter (fun c => !(isMn c)) from rfl]
  rw [show nfd ((nfd s.data).filter (fun c => !(isMn c))) =
      (nfd s.data).filter (fun c => !(isMn c)) from flatMap_decomp_id hdec]
  rw [List.filter_filter]
  congr 1
  apply List.filter_congr
  intro x _
  rw [Bool.and_self]

/-! ### Month resolution on header lines -/

/-- If some alias occurs in the line, the longest-match search succeeds. -/
theorem findMonthAlias_isSome_of_any {l : List Char}
    (h : month_map.any (fun p => hasSub l p.1.data) = true) :
    ∃ a, findMonthAlias l = some a := by
  rw [List.any_eq_true] at h
  obtain ⟨p, hp, hsub⟩ := h
  have hmem : p.1 ∈ sortedAliases :=
    sortedAliases_perm.mem_iff.mpr (List.mem_map_of_mem Prod.fst hp)
  cases hfind : findMonthAlias l with
  | some a => exact ⟨a, rfl⟩
  | none =>
    rw [findMonthAlias, List.find?_eq_none] at hfind
    exact absurd hsub (by simpa using hfind _ hmem)

/-- All month-table values are between 1 and 13. -/
theorem month_map_pair_bounds : ∀ p ∈ month_map, 1 ≤ p.2 ∧ p.2 ≤ 13 := by decide

/-- A line passing the header test resolves to some alias whose table value
is between 1 and 13. -/
theorem headerResolve_of_isHeader {l : List Char} (h : isHeaderLine l = true) :
    ∃ a v, findMonthAlias l = some a ∧ month_map.lookup a = some v ∧
      1 ≤ v ∧ v ≤ 13 := by
  have hany : month_map.any (fun p => hasSub l p.1.data) = true := by
    rw [isHeaderLine] at h
    simp only [Bool.and_eq_true] at h
    exact h.1.2
  obtain ⟨a, ha⟩ := findMonthAlias_isSome_of_any hany
  have hmem : a ∈ sortedAliases := List.mem_of_find?_eq_some ha
  have hkeys : a ∈ month_map.map Prod.fst := sortedAliases_perm.mem_iff.mp hmem
  obtain ⟨v, hv⟩ := exists_lookup_of_mem_keys hkeys
  have hb := month_map_pair_bounds _ (mem_of_lookup_eq_some hv)
  exact ⟨a, v, ha, hv, hb.1, hb.2⟩

/-- On a line passing the header test, the header action always reaches the
success branch: the day becomes the decoded first token and the month becomes
a value in 1..12. -/
theorem headerAction_of_isHeader (st : ScanState) {l : List Char}
    (h : isHeaderLine l = true) :
    (headerAction st l).currentDay = some (hebrew_to_int (dayTextOf l)) ∧
    ∃ mo, (headerAction st l).currentMonth = some mo ∧ 1 ≤ mo ∧ mo ≤ 12 := by
  obtain ⟨a, v, ha, hv, hv1, hv2⟩ := headerResolve_of_isHeader h
  rw [headerAction, ha]
  dsimp only
  rw [hv]
  dsimp only
  by_cases hc : (v == 12 || v == 13) = true
  · simp only [hc, if_true, hebrew_to_int_checked]
    exact ⟨by trivial, 12, by trivial, by omega⟩
  · simp only [hc, if_false, Bool.false_eq_true, hebrew_to_int_checked]
    refine ⟨by trivial, v, by trivial, hv1, ?_⟩
    simp only [Bool.or_eq_true, beq_iff_eq] at hc
    omega

/-- A header line routes the scanner step into the header action. -/
theorem stepLine_header {st : ScanState} {m : RecordMap} {raw : String}
    (h : isHeaderLine (stripSA raw.data) = true) :
    stepLine (st, m) raw = (headerAction st (stripSA raw.data), m) := by
  simp only [stepLine, h, if_true]

/-! ### Claim C8: the decoder is total, the decode-failure branch is dead -/

/-- C8.  The Numeral Decoder is total: the checked call the scanner makes
always returns a value (never the failure case), so on every header line the
decode-failure branch that would clear `currentDay` is never taken — the
resulting day is always the decoded first token. -/
theorem C8_decoder_never_fails :
    (∀ s : String, hebrew_to_int_checked s = some (hebrew_to_int s)) ∧
    (∀ (st : ScanState) (m : RecordMap) (raw : String),
       isHeaderLine (stripSA raw.data) = true →
       (stepLine (st, m) raw).1.currentDay =
         some (hebrew_to_int (dayTextOf (stripSA raw.data)))) := by
  refine ⟨fun _ => rfl, fun st m raw h => ?_⟩
  rw [stepLine_header h]
  exact (headerAction_of_isHeader st h).1

/-- C8 witness at a concrete header line. -/
theorem C8_decoder_never_fails_witness :
    isHeaderLine (stripSA ("כ תשרי" : String).data) = true ∧
    (stepLine (initState, []) "כ תשרי").1.currentDay =
      some (hebrew_to_int (dayTextOf (stripSA ("כ תשרי" : String).data))) :=
  ⟨by decide, C8_decoder_never_fails.2 initState [] "כ תשרי" (by decide)⟩

/-! ### Claim C10: header test implies month resolution -/

/-- C10.  Whenever the header test succeeds on a (stripped) line, the
longest-match month lookup finds some alias and its table lookup succeeds,
so the branch clearing `currentDay` because no month resolved is
unreachable: after the step the current month is always present. -/
theorem C10_header_always_resolves_month :
    ∀ (st : ScanState) (m : RecordMap) (raw : String),
      isHeaderLine (stripSA raw.data) = true →
      (∃ a v, findMonthAlias (stripSA raw.data) = some a ∧
        month_map.lookup a = some v) ∧
      (stepLine (st, m) raw).1.currentMonth ≠ none := by
  intro st m raw h
  obtain ⟨a, v, ha, hv, _, _⟩ := headerResolve_of_isHeader h
  refine ⟨⟨a, v, ha, hv⟩, ?_⟩
  rw [stepLine_header h]
  obtain ⟨mo, hmo, _, _⟩ := (headerAction_of_isHeader st h).2
  simp [hmo]

/-- C10 witness at a concrete header line. -/
theorem C10_header_always_resolves_month_witness :
    (∃ a v, findMonthAlias (stripSA ("י ניסן" : String).data) = some a ∧
      month_map.lookup a = some v) ∧
    (stepLine (initState, []) "י ניסן").1.currentMonth ≠ none :=
  C10_header_always_resolves_month initState [] "י ניסן" (by decide)

/-! ### Claim C2: leap-month alias resolution after stripping -/

/-- C2 counterexample.  The raw header line below contains both the bare
leap-month alias and the first-half alias as substrings, yet after the
scanner strips apostrophes the first-half alias can no longer match: the
step resolves the bare alias, so `defaultPref` becomes `none`, not `first`,
refuting the claimed resolution. -/
theorem C2_counterexample :
    hasSub ("כ אדר א\u0027" : String).data adar1.data = true ∧
    hasSub ("כ אדר א\u0027" : String).data "אדר".data = true ∧
    stepLine (initState, []) "כ אדר א\u0027" = (⟨some 20, some 12, none⟩, []) :=
  ⟨by decide, by decide, by decide⟩

/-- C2 amended.  After the backslash-and-apostrophe strip, the first-half
alias (which ends in an apostrophe) cannot occur in any scanned line, so on
a header line containing the bare leap-month alias the longest surviving
match is the bare alias: the scanner sets `currentMonth` to 12 and
`defaultPref` to `none`. -/
theorem C2_amended_bare_alias_wins :
    (∀ raw : String, hasSub (stripSA raw.data) adar1.data = false) ∧
    (∀ (st : ScanState) (m : RecordMap),
       (stepLine (st, m) "כ אדר א\u0027").1 = ⟨some 20, some 12, none⟩) := by
  constructor
  · intro raw
    cases h : hasSub (stripSA raw.data) adar1.data with
    | false => rfl
    | true =>
      exfalso
      have hmem : apos ∈ stripSA raw.data :=
        mem_of_hasSub h apos (by decide)
      have hpred := (List.mem_filter.mp hmem).2
      exact absurd hpred (by decide)
  · intro st m
    rfl

/-! ### The name-attribution step on a primary-prefixed line -/

/-- On a line that is the primary lead token followed by anything, with a
nonzero day in force, the scanner emits exactly one record: the cleaned line
with diacritics stripped, under the `(currentMonth, day)` key, carrying the
inherited default preference; the state is unchanged. -/
theorem stepLine_name_lead (st : ScanState) (m : RecordMap) (rest : String) {d : Nat}
    (hd : st.currentDay = some d) (hd0 : d ≠ 0) :
    stepLine (st, m) ("רבי " ++ rest) =
      (st, mapAppend m (st.currentMonth, d)
        ⟨remove_nikud (String.mk (removeQQ ("רבי ".data ++ stripSA rest.data))),
         st.defaultPref⟩) := by
  have hstrip : stripSA (("רבי " ++ rest).data) = "רבי ".data ++ stripSA rest.data := by
    rw [append_mk]
    show List.filter _ ("רבי ".data ++ rest.data) = _
    rw [List.filter_append]
    congr 1
  have hsw : startsWith ("רבי ".data ++ stripSA rest.data) ("רבי ".data) = true :=
    startsWith_append_self _ _
  have hheader : isHeaderLine ("רבי ".data ++ stripSA rest.data) = false := by
    rw [isHeaderLine, hsw]
    simp
  have hname : isNameLine st ("רבי ".data ++ stripSA rest.data) = true := by
    rw [isNameLine, dayTruthy, hd]
    simp [nameLeadTokens, hd0]
    exact Or.inl (startsWith_append_self ['ר', 'ב', 'י', ' '] _)
  have hqq : removeQQ ("רבי ".data ++ stripSA rest.data) =
      'ר' :: 'ב' :: 'י' :: ' ' :: removeQQ (stripSA rest.data) := by
    show removeQQ ('ר' :: 'ב' :: 'י' :: ' ' :: stripSA rest.data) = _
    rw [removeQQ_cons (by decide), removeQQ_cons (by decide), removeQQ_cons (by decide),
      removeQQ_cons (by decide)]
  have hmA : startsWith (removeQQ ("רבי ".data ++ stripSA rest.data)) markA = false := by
    rw [hqq]
    exact startsWith_false_of_head (by decide) _ _
  have hmB : startsWith (removeQQ ("רבי ".data ++ stripSA rest.data)) markB = false := by
    rw [hqq]
    exact startsWith_false_of_head (by decide) _ _
  simp only [stepLine, hstrip, hheader, Bool.false_eq_true, if_false, hname, if_true]
  simp only [nameAction, hmA, hmB, Bool.false_eq_true, if_false]
  rw [hd]
  rfl

/-! ### Claim C1: the basic two-line block -/

/-- C1.  From the all-absent state, a block whose first line is the header
made of the numeral worth 20 and the bare alias of month 7, and whose second
line is the primary lead token followed by a name (free of the punctuation
artifacts the scanner strips), yields exactly one record, under key (7, 20),
whose text is the whole name line with diacritics stripped and whose
preference is none. -/
theorem C1_scan_basic_block (rest : String)
    (h1 : stripSA rest.data = rest.data) (h2 : removeQQ rest.data = rest.data) :
    scanLines (initState, []) ["כ תשרי", "רבי " ++ rest] =
      (⟨some 20, some 7, none⟩,
       [((some 7, 20), [⟨remove_nikud ("רבי " ++ rest), none⟩])]) := by
  rw [scanLines, List.foldl_cons,
    show stepLine (initState, []) "כ תשרי" = (⟨some 20, some 7, none⟩, []) from by decide,
    List.foldl_cons, List.foldl_nil,
    stepLine_name_lead ⟨some 20, some 7, none⟩ [] rest rfl (by decide)]
  rw [h1]
  have hq : removeQQ ("רבי ".data ++ rest.data) = ("רבי " ++ rest).data := by
    show removeQQ ('ר' :: 'ב' :: 'י' :: ' ' :: rest.data) = _
    rw [removeQQ_cons (by decide), removeQQ_cons (by decide), removeQQ_cons (by decide),
      removeQQ_cons (by decide), h2, append_mk]
    rfl
  rw [hq]
  rw [show String.mk (("רבי " ++ rest).data) = "רבי " ++ rest from rfl]
  simp [mapAppend]

/-- C1 witness at a concrete name. -/
theorem C1_scan_basic_block_witness :
    scanLines (initState, []) ["כ תשרי", "רבי " ++ "יוחנן"] =
      (⟨some 20, some 7, none⟩,
       [((some 7, 20), [⟨remove_nikud ("רבי " ++ "יוחנן"), none⟩])]) :=
  C1_scan_basic_block "יוחנן" (by decide) (by decide)

/-! ### Claim C7: parenthesized leaf markers -/

/-- C7 counterexample.  A line that begins with the second-half marker is not
a name-attribution line at all (the marker prevents every lead token from
matching), so with a date in force and an inherited first-half default the
scanner emits no record — the claim instead expects a record carrying the
second-half preference. -/
theorem C7_counterexample :
    stepLine (⟨some 20, some 12, some 1⟩, []) "(ב) רבי פלוני" =
      (⟨some 20, some 12, some 1⟩, []) := by decide

/-- C7 amended.  A line whose stripped form begins with a parenthesis never
emits a record (so the marker-override branch of the name action is
unreachable), and a primary-lead name line emits a record whose preference
is exactly the inherited `defaultPref`. -/
theorem C7_amended_marker_lines_are_noise :
    (∀ (st : ScanState) (m : RecordMap) (raw : String) (t : List Char),
       stripSA raw.data = '(' :: t → (stepLine (st, m) raw).2 = m) ∧
    (∀ (st : ScanState) (m : RecordMap) (rest : String) (d : Nat),
       st.currentDay = some d → d ≠ 0 →
       stepLine (st, m) ("רבי " ++ rest) =
         (st, mapAppend m (st.currentMonth, d)
           ⟨remove_nikud (String.mk (removeQQ ("רבי ".data ++ stripSA rest.data))),
            st.defaultPref⟩)) := by
  constructor
  · intro st m raw t h
    have hany : nameLeadTokens.any (fun p => startsWith ('(' :: t) p.data) = false := by
      rw [List.any_eq_false]
      intro p hp
      simp only [nameLeadTokens, List.mem_cons, List.not_mem_nil, or_false] at hp
      simp only [Bool.not_eq_true]
      rcases hp with rfl | rfl | rfl | rfl | rfl | rfl | rfl | rfl <;>
        exact startsWith_false_of_head (by decide) _ _
    have hname : isNameLine st ('(' :: t) = false := by
      rw [isNameLine, hany, Bool.and_false]
    simp only [stepLine, h]
    by_cases hh : isHeaderLine ('(' :: t) = true
    · rw [if_pos hh]
    · rw [if_neg hh, if_neg (by simp [hname])]
      rw [ite_self]
  · intro st m rest d hd hd0
    exact stepLine_name_lead st m rest hd hd0

/-- C7 witness: a concrete marker line emits nothing, and a concrete plain
name line inherits the default preference. -/
theorem C7_amended_marker_lines_are_noise_witness :
    (stepLine (⟨some 20, some 12, some 1⟩, ([] : RecordMap)) "(א) רבי א").2 = ([] : RecordMap) ∧
    stepLine (⟨some 3, some 5, none⟩, ([] : RecordMap)) ("רבי " ++ "א") =
      (⟨some 3, some 5, none⟩, mapAppend [] (some 5, 3)
        ⟨remove_nikud (String.mk (removeQQ ("רבי ".data ++ stripSA ("א" : String).data))),
         none⟩) :=
  ⟨C7_amended_marker_lines_are_noise.1 ⟨some 20, some 12, some 1⟩ [] "(א) רבי א"
      ("א) רבי א" : String).data (by decide),
   C7_amended_marker_lines_are_noise.2 ⟨some 3, some 5, none⟩ [] "א" 3 rfl (by decide)⟩

/-! ### Claim C5: first-occurrence dedup -/

/-- The dedup walk with a seen set equals the declarative first-occurrence
dedup of the entries not already seen. -/
theorem dedupGo_eq (l : List Entry) :
    ∀ seen, dedupGo seen l =
      dedupSpec (l.filter (fun x => !(decide (entryKey x ∈ seen)))) := by
  induction l with
  | nil => intro seen; simp [dedupGo, dedupSpec]
  | cons e rest ih =>
    intro seen
    by_cases hmem : entryKey e ∈ seen
    · rw [dedupGo, if_pos hmem, ih seen, List.filter_cons, if_neg (by simp [hmem])]
    · rw [dedupGo, if_neg hmem, ih (entryKey e :: seen), List.filter_cons,
        if_pos (by simp [hmem])]
      rw [dedupSpec]
      congr 1
      rw [List.filter_filter]
      congr 1
      apply List.filter_congr
      intro x _
      by_cases h1 : entryKey x = entryKey e
      · simp [h1, List.mem_cons]
      · by_cases h2 : entryKey x ∈ seen <;> simp [h1, h2, List.mem_cons]

/-- C5.  Per-key dedup keeps exactly the first occurrence of each
`(text, adar_pref)` pair in order (the loop equals the declarative
first-occurrence dedup, which preserves the relative order of survivors);
two records differing only in the preference are both kept; and the
aggregate holds, at every key, exactly the dedup of the merged list at that
key. -/
theorem C5_dedup_first_occurrence :
    (∀ l : List Entry, dedup l = dedupSpec l) ∧
    (∀ (t : String) (p1 p2 : Option Nat), p1 ≠ p2 →
       dedup [⟨t, p1⟩, ⟨t, p2⟩] = [⟨t, p1⟩, ⟨t, p2⟩]) ∧
    (∀ (rs : List (Except Unit RecordMap)) (k : Key),
       (aggregate rs).lookup k = ((mergeResults rs).lookup k).map dedup) := by
  refine ⟨?_, ?_, ?_⟩
  · intro l
    rw [dedup, dedupGo_eq l []]
    congr 1
    simp
  · intro t p1 p2 hp
    simp [dedup, dedupGo, entryKey, Ne.symm hp]
  · have hmap : ∀ (l : RecordMap) (k : Key),
        (l.map (fun p => (p.1, dedup p.2))).lookup k = (l.lookup k).map dedup := by
      intro l k
      induction l with
      | nil => rfl
      | cons p t ih =>
        obtain ⟨a, b⟩ := p
        cases hk : k == a with
        | true => simp [List.lookup, hk]
        | false => simp [List.lookup, hk, ih]
    intro rs k
    rw [aggregate]
    exact hmap _ _

/-- C5 witness: same text, different preferences, both kept. -/
theorem C5_dedup_first_occurrence_witness :
    dedup [⟨"א", none⟩, ⟨"א", some 1⟩] = [⟨"א", none⟩, ⟨"א", some 1⟩] :=
  C5_dedup_first_occurrence.2.1 "א" none (some 1) (by decide)

/-! ### Claim C6: failure isolation -/

/-- One unit processes events up to the first exception and keeps the
records it accumulated so far. -/
theorem runEvents_stops_at_exn (suf : List ScanEvent) :
    ∀ (pre : List ScanEvent), ScanEvent.exn ∉ pre →
      ∀ m, runEvents m (pre ++ ScanEvent.exn :: suf) = runEvents m pre := by
  intro pre
  induction pre with
  | nil => intro _ m; rfl
  | cons e t ih =>
    intro h m
    cases e with
    | post bs =>
      rw [List.cons_append, runEvents, runEvents]
      exact ih (fun hh => h (List.mem_cons_of_mem _ hh)) _
    | exn => exact absurd (List.mem_cons_self _ _) h

/-- C6.  A unit that raises partway returns exactly the record map it had
accumulated up to the exception point, and a unit that came back as an
exception is skipped by the aggregation, which never aborts: every other
unit contributes exactly as if the failed unit were absent. -/
theorem C6_failure_isolation :
    (∀ (pre suf : List ScanEvent), ScanEvent.exn ∉ pre →
       fetch_forum_page (pre ++ ScanEvent.exn :: suf) = fetch_forum_page pre) ∧
    (∀ (rs1 rs2 : List (Except Unit RecordMap)),
       mergeResults (rs1 ++ Except.error () :: rs2) = mergeResults (rs1 ++ rs2)) := by
  constructor
  · intro pre suf h
    rw [fetch_forum_page, fetch_forum_page]
    exact runEvents_stops_at_exn suf pre h []
  · intro rs1 rs2
    rw [mergeResults, mergeResults, List.foldl_append, List.foldl_cons, List.foldl_append]

/-- C6 witness at a concrete event sequence and merge list. -/
theorem C6_failure_isolation_witness :
    fetch_forum_page
        ([ScanEvent.post ["כ תשרי\nרבי א"]] ++
          ScanEvent.exn :: [ScanEvent.post ["י ניסן\nרבי ב"]]) =
      fetch_forum_page [ScanEvent.post ["כ תשרי\nרבי א"]] :=
  C6_failure_isolation.1 [ScanEvent.post ["כ תשרי\nרבי א"]]
    [ScanEvent.post ["י ניסן\nרבי ב"]] (by decide)

/-! ### Claim C3: bounds on emitted record keys -/

/-- State invariant: whenever a nonzero day is in force, a month in 1..12 is
also in force. -/
def stateOK (st : ScanState) : Prop :=
  ∀ d, st.currentDay = some d → d ≠ 0 →
    ∃ mo, st.currentMonth = some mo ∧ 1 ≤ mo ∧ mo ≤ 12

/-- Key invariant: a present month in 1..12 and a day of at least 1. -/
def keyOK (k : Key) : Prop :=
  (∃ mo, k.1 = some mo ∧ 1 ≤ mo ∧ mo ≤ 12) ∧ 1 ≤ k.2

/-- Map invariant: every key of the record dict satisfies `keyOK`. -/
def mapOK (m : RecordMap) : Prop := ∀ p ∈ m, keyOK p.1

/-- The empty dict satisfies the map invariant. -/
theorem mapOK_nil : mapOK [] := by
  intro p hp
  simp at hp

/-- The initial all-absent state satisfies the state invariant. -/
theorem stateOK_init : stateOK initState := by
  intro d hd hd0
  simp [initState] at hd

/-- Appending an entry under a good key preserves the map invariant. -/
theorem mapOK_mapAppend {m : RecordMap} {k : Key} {e : Entry}
    (hm : mapOK m) (hk : keyOK k) : mapOK (mapAppend m k e) := by
  intro p hp
  rw [mapAppend] at hp
  by_cases hc : m.any (fun q => q.1 == k) = true
  · rw [if_pos hc] at hp
    obtain ⟨q, hq, hpq⟩ := List.mem_map.mp hp
    have h1 : p.1 = q.1 := by
      by_cases hqk : (q.1 == k) = true
      · rw [if_pos hqk] at hpq
        rw [← hpq]
      · rw [if_neg hqk] at hpq
        rw [← hpq]
    rw [h1]
    exact hm q hq
  · rw [if_neg hc] at hp
    rcases List.mem_append.mp hp with h | h
    · exact hm p h
    · rw [List.mem_singleton] at h
      subst h
      exact hk

/-- One scanner step preserves both invariants. -/
theorem stepLine_preserves (sm : ScanState × RecordMap) (raw : String)
    (h1 : stateOK sm.1) (h2 : mapOK sm.2) :
    stateOK (stepLine sm raw).1 ∧ mapOK (stepLine sm raw).2 := by
  obtain ⟨st, m⟩ := sm
  by_cases hh : isHeaderLine (stripSA raw.data) = true
  · rw [stepLine_header hh]
    refine ⟨?_, h2⟩
    intro d hd hd0
    exact (headerAction_of_isHeader st hh).2
  · simp only [stepLine, if_neg hh]
    by_cases hn : isNameLine st (stripSA raw.data) = true
    · rw [if_pos hn]
      refine ⟨h1, ?_⟩
      rw [isNameLine, Bool.and_eq_true] at hn
      have hdt := hn.1
      obtain ⟨d, hd, hd0⟩ : ∃ d, st.currentDay = some d ∧ d ≠ 0 := by
        rw [dayTruthy] at hdt
        cases hcd : st.currentDay with
        | none => rw [hcd] at hdt; simp at hdt
        | some d =>
          rw [hcd] at hdt
          simp only [bne_iff_ne, ne_eq] at hdt
          exact ⟨d, rfl, by simpa using hdt⟩
      simp only [nameAction]
      apply mapOK_mapAppend h2
      obtain ⟨mo, hmo, hb1, hb2⟩ := h1 d hd hd0
      refine ⟨⟨mo, hmo, hb1, hb2⟩, ?_⟩
      rw [hd]
      simp only [Option.getD_some]
      omega
    · rw [if_neg hn, ite_self]
      exact ⟨h1, h2⟩

/-- A whole line sequence preserves both invariants. -/
theorem scanLines_preserves (lines : List String) :
    ∀ sm : ScanState × RecordMap, stateOK sm.1 → mapOK sm.2 →
      stateOK (scanLines sm lines).1 ∧ mapOK (scanLines sm lines).2 := by
  induction lines with
  | nil => intro sm h1 h2; exact ⟨h1, h2⟩
  | cons a t ih =>
    intro sm h1 h2
    have hs := stepLine_preserves sm a h1 h2
    exact ih (stepLine sm a) hs.1 hs.2

/-- Scanning one post preserves the map invariant. -/
theorem scanPost_preserves {m : RecordMap} (blocks : List String) (h : mapOK m) :
    mapOK (scanPost m blocks) :=
  (scanLines_preserves (postLines blocks) (initState, m) stateOK_init h).2

/-- Processing any event sequence preserves the map invariant. -/
theorem runEvents_preserves (events : List ScanEvent) :
    ∀ m : RecordMap, mapOK m → mapOK (runEvents m events) := by
  induction events with
  | nil => intro m h; exact h
  | cons e t ih =>
    intro m h
    cases e with
    | post bs => rw [runEvents]; exact ih _ (scanPost_preserves bs h)
    | exn => exact h

/-- C3 amended.  Every record key ever emitted by a scan unit has a present
month in 1..12 and a day of at least 1 (a record is only emitted while
`currentDay` is present and nonzero, so no record carries day 0 or an absent
month); the original bound of 30 on the day does not hold. -/
theorem C3_amended_record_key_bounds (events : List ScanEvent) :
    ∀ p ∈ fetch_forum_page events,
      (∃ mo, p.1.1 = some mo ∧ 1 ≤ mo ∧ mo ≤ 12) ∧ 1 ≤ p.1.2 := by
  intro p hp
  exact runEvents_preserves events [] mapOK_nil p hp

/-- C3 witness at a concrete scan. -/
theorem C3_amended_record_key_bounds_witness :
    (∃ mo, ((some 7, 20) : Key).1 = some mo ∧ 1 ≤ mo ∧ mo ≤ 12) ∧
      1 ≤ ((some 7, 20) : Key).2 :=
  C3_amended_record_key_bounds [ScanEvent.post ["כ תשרי\nרבי א"]]
    ((some 7, 20), [⟨"רבי א", none⟩]) (by decide)

/-- C3 counterexample.  The header whose first token is the two-letter
numeral worth 31 passes the header test (both its leading letters are
numeral letters), so the very next name line emits a record with day 31,
refuting the claimed day ≤ 30 bound. -/
theorem C3_counterexample :
    fetch_forum_page [ScanEvent.post ["לא תשרי\nרבי א"]] =
      [((some 7, 31), [⟨"רבי א", none⟩])] ∧ ¬(31 ≤ 30) :=
  ⟨by decide, by decide⟩

end YidcalData
